import Mathlib

/-!
# ITHACA-FV utilities: mass matrix, internal-field assignment, field export

A shallow embedding of the three function templates defined in
`src/ITHACAutilities/ITHACAutilities.H`:

* `ITHACAutilities::exportSolution`
* `ITHACAutilities::assignIF`
* `ITHACAutilities::get_mass_matrix_Eigen`

Floating point numbers are replaced by rationals (exact arithmetic).  Calls that abort
(an Eigen product of non-conforming operands, an access outside a `PtrList`) are
modelled in the `Except` monad.
-/

namespace ITHACAutilities

/-! ## Data model -/

/-- Ways in which a call can fail to return.  `ShapeMismatch` and `EmptyInput` are the
error classes named by the specification; `outOfRange` is `PtrList::operator[]` applied
outside the list; `invalidMatrixProduct` is an Eigen product whose operand sizes do not
conform. -/
inductive Failure where
  | ShapeMismatch
  | EmptyInput
  | outOfRange
  | invalidMatrixProduct
  deriving DecidableEq, Repr

/-- The part of an `fvMesh` read by the utilities: `V()`, the cell volumes listed by
cell id.  The number of cells is the length of that list. -/
structure fvMesh where
  V : List ℚ
  deriving DecidableEq, Repr

/-- Number of cells of the mesh. -/
def fvMesh.nCells (mesh : fvMesh) : Nat := mesh.V.length

/-- An OpenFOAM `Vector<double>`. -/
structure Vector3 where
  x : ℚ
  y : ℚ
  z : ℚ
  deriving DecidableEq, Repr

/-- Component structure of a primitive value type (`scalar` has one component,
`vector` has three). -/
class pTraits (G : Type) where
  nComponents : Nat
  component : G → Nat → ℚ

instance : pTraits ℚ where
  nComponents := 1
  component := fun v _ => v

instance : pTraits Vector3 where
  nComponents := 3
  component := fun v d => match d with
    | 0 => v.x
    | 1 => v.y
    | _ => v.z

/-- A `GeometricField<G, fvPatchField, volMesh>`: its name, the mesh it lives on, the
internal (cell) values listed by cell id, and the values on every boundary patch. -/
structure GeometricField (G : Type) where
  name : String
  mesh : fvMesh
  internalField : List G
  boundaryField : List (List G)

/-- A `volScalarField`. -/
abbrev volScalarField := GeometricField ℚ

/-- A `volVectorField`. -/
abbrev volVectorField := GeometricField Vector3

/-- A field of OpenFOAM holds one internal value per cell of its mesh. -/
def GeometricField.wellFormed {G : Type} (s : GeometricField G) : Prop :=
  s.internalField.length = s.mesh.nCells

instance {G : Type} (s : GeometricField G) : Decidable s.wellFormed :=
  inferInstanceAs (Decidable (s.internalField.length = s.mesh.nCells))

/-- An OpenFOAM `PtrList<T>`. -/
abbrev PtrList (T : Type) := List T

/-- The access `fields[i]` of a `PtrList`; outside the list the call does not return. -/
def PtrList.at {T : Type} (fields : PtrList T) (i : Nat) : Except Failure T :=
  match fields[i]? with
  | some f => .ok f
  | none => .error .outOfRange

/-! ## Dense matrices (Eigen) -/

/-- An `Eigen::VectorXd`: a size and the coefficients. -/
structure VectorXd where
  size : Nat
  coeff : Nat → ℚ

/-- An `Eigen::MatrixXd`: the two dimensions and the coefficients. -/
structure MatrixXd where
  rows : Nat
  cols : Nat
  coeff : Nat → Nat → ℚ

/-- The method `transpose()`. -/
def MatrixXd.transpose (A : MatrixXd) : MatrixXd :=
  ⟨A.cols, A.rows, fun i j => A.coeff j i⟩

/-- The method `asDiagonal()` assigned to a dense matrix. -/
def VectorXd.asDiagonal (v : VectorXd) : MatrixXd :=
  ⟨v.size, v.size, fun i j => if i = j then v.coeff i else 0⟩

/-- The product `A * B`.  Eigen requires `A.cols() == B.rows()`. -/
def MatrixXd.mul (A B : MatrixXd) : Except Failure MatrixXd :=
  if A.cols = B.rows then
    .ok ⟨A.rows, B.cols, fun i j => ∑ k ∈ Finset.range A.cols, A.coeff i k * B.coeff k j⟩
  else
    .error .invalidMatrixProduct

/-- The entries of a matrix as a list of rows. -/
def MatrixXd.toLists (A : MatrixXd) : List (List ℚ) :=
  (List.range A.rows).map fun i => (List.range A.cols).map fun j => A.coeff i j

/-! ## Foam2Eigen -/

/-- Value of degree of freedom `l` of a field: component `l % c` of the value in cell
`l / c`, where `c` is the number of components (`0` outside the field). -/
def dofValue {G : Type} [pTraits G] (s : GeometricField G) (l : Nat) : ℚ :=
  match s.internalField[l / pTraits.nComponents G]? with
  | some v => pTraits.component v (l % pTraits.nComponents G)
  | none => 0

/-- Modelled from the spec: `Foam2Eigen::PtrList2Eigen` (`Foam2Eigen.H` is included by the
header but is not part of the sources).  Section 4.1: each field becomes one column;
within a column the values are ordered by cell id, the components of one cell placed
contiguously; the shape is `(numCells * c) × numFields`; a sequence whose fields
reference different meshes fails with `ShapeMismatch` (differing component counts are
excluded by the element type). -/
def PtrList2Eigen {G : Type} [pTraits G] (fields : PtrList (GeometricField G)) :
    Except Failure MatrixXd :=
  match fields with
  | [] => .ok ⟨0, 0, fun _ _ => 0⟩
  | f0 :: rest =>
    if rest.all (fun f => decide (f.mesh = f0.mesh)) then
      .ok ⟨f0.mesh.nCells * pTraits.nComponents G, (f0 :: rest).length,
        fun l k => match (f0 :: rest)[k]? with
          | some f => dofValue f l
          | none => 0⟩
    else
      .error .ShapeMismatch

/-- Modelled from the spec: `Foam2Eigen::field2Eigen` applied to the scalar field of cell
volumes `mesh.V()` (`Foam2Eigen.H` is not part of the sources).  Section 4.1: one field
becomes one column, ordered by cell id. -/
def field2Eigen (V : List ℚ) : VectorXd :=
  ⟨V.length, fun i => V.getD i 0⟩

/-! ## The function templates of the header -/

/-- Observable actions of an export: creating a directory, creating the symbolic links
to `0`, `system` and `constant` in a folder, printing a line, writing a field to a file. -/
inductive Effect where
  | mkDir (path : String)
  | createSymLink (folder : String)
  | info (text : String)
  | write (path : String) (fieldName : String)
  deriving DecidableEq, Repr

/-- The template `exportSolution` as defined at the end of the header.  The definition
names its second parameter `folder` and its third parameter `subfolder`:
`mkDir(folder + "/" + subfolder); createSymLink(folder);
fieldname = folder + "/" + subfolder + "/" + s.name(); Info << fieldname;
OFstream os(fieldname); s.writeHeader(os); os << s`. -/
def exportSolution {G : Type} (s : GeometricField G) (folder subfolder : String) :
    List Effect :=
  let fieldname := folder ++ "/" ++ subfolder ++ "/" ++ s.name
  [.mkDir (folder ++ "/" ++ subfolder), .createSymLink folder, .info fieldname,
    .write fieldname s.name]

/-- The template `assignIF`:
`for (label i = 0; i < s.internalField().size(); i++) s.ref()[i] = value;`. -/
def assignIF {G : Type} (s : GeometricField G) (value : G) : GeometricField G :=
  (List.range s.internalField.length).foldl
    (fun s i => { s with internalField := s.internalField.set i value }) s

/-- The template `get_mass_matrix_Eigen`:
`F = PtrList2Eigen(fields); V = field2Eigen(fields[0].mesh().V()); VM = V.asDiagonal();
M = F.transpose() * VM * F`. -/
def get_mass_matrix_Eigen {G : Type} [pTraits G] (fields : PtrList (GeometricField G)) :
    Except Failure MatrixXd := do
  let F ← PtrList2Eigen fields
  let f0 ← PtrList.at fields 0
  let V := field2Eigen f0.mesh.V
  let VM := V.asDiagonal
  let FtVM ← F.transpose.mul VM
  let M ← FtVM.mul F
  return M

/-! ## Quantities used to state the properties -/

/-- Column `k` of the vectorised sequence at row `l` (`0` when there is no field `k`). -/
def column {G : Type} [pTraits G] (fields : PtrList (GeometricField G)) (k l : Nat) : ℚ :=
  match fields[k]? with
  | some f => dofValue f l
  | none => 0

/-- Weighted product of columns `i` and `j`, summed over the first `n` rows with the
weights `V`. -/
def weightedGram {G : Type} [pTraits G] (fields : PtrList (GeometricField G)) (V : List ℚ)
    (n i j : Nat) : ℚ :=
  ∑ k ∈ Finset.range n, column fields i k * V.getD k 0 * column fields j k

/-- Dot product of two values (the product of two scalars, the inner product of two
vectors). -/
def dot {G : Type} [pTraits G] (a b : G) : ℚ :=
  ∑ d ∈ Finset.range (pTraits.nComponents G), pTraits.component a d * pTraits.component b d

/-- Value of a field in a cell, as an optional value. -/
def cellValue {G : Type} (s : GeometricField G) (cell : Nat) : Option G :=
  s.internalField[cell]?

/-- Dot product of the values of two fields in one cell (`0` when a value is missing). -/
def cellDot {G : Type} [pTraits G] (s t : GeometricField G) (cell : Nat) : ℚ :=
  match cellValue s cell, cellValue t cell with
  | some a, some b => dot a b
  | _, _ => 0

/-- Volume-weighted inner product of two fields over the cells of a mesh:
the sum over the cells of `volume(cell) * (s(cell) · t(cell))`. -/
def weightedInner {G : Type} [pTraits G] (mesh : fvMesh) (s t : GeometricField G) : ℚ :=
  ∑ cell ∈ Finset.range mesh.nCells, mesh.V.getD cell 0 * cellDot s t cell

/-! ## Concrete inputs -/

/-- A mesh of two cells with volumes 2 and 3. -/
def meshTwo : fvMesh := ⟨[2, 3]⟩

/-- A mesh of one cell of volume 1. -/
def meshOne : fvMesh := ⟨[1]⟩

/-- A scalar mode on `meshTwo`. -/
def modeA : volScalarField := ⟨"a", meshTwo, [1, 2], [[0]]⟩

/-- A second scalar mode on `meshTwo`. -/
def modeB : volScalarField := ⟨"b", meshTwo, [5, 7], [[0]]⟩

/-- A scalar mode on `meshOne`. -/
def modeC : volScalarField := ⟨"c", meshOne, [1], [[0]]⟩

/-- A vector mode on `meshOne`, equal to `(1, 0, 0)` in the only cell. -/
def modeU : volVectorField := ⟨"U", meshOne, [⟨1, 0, 0⟩], [[⟨0, 0, 0⟩]]⟩

/-- A scalar field with three cells and two boundary patches. -/
def fieldT : volScalarField := ⟨"T", ⟨[1, 1, 1]⟩, [4, 5, 6], [[7], [8, 9]]⟩

/-! ## Auxiliary facts -/

/-- Multiplying by a diagonal matrix keeps one term of the sum. -/
theorem sum_mul_diag (n k : Nat) (hk : k < n) (a v : Nat → ℚ) :
    ∑ l ∈ Finset.range n, a l * (if l = k then v l else 0) = a k * v k := by
  rw [Finset.sum_eq_single k]
  · simp
  · intro b _ hb; simp [hb]
  · intro h; exact absurd (Finset.mem_range.mpr hk) h

/-- Closed form of the result on a sequence sharing one mesh, when the products conform. -/
theorem get_mass_matrix_Eigen_cons {G : Type} [pTraits G] (f0 : GeometricField G)
    (rest : PtrList (GeometricField G))
    (hmesh : ∀ f ∈ rest, f.mesh = f0.mesh)
    (hc : f0.mesh.nCells * pTraits.nComponents G = f0.mesh.nCells) :
    get_mass_matrix_Eigen (f0 :: rest) =
      .ok ⟨rest.length + 1, rest.length + 1,
        fun i j => weightedGram (f0 :: rest) f0.mesh.V f0.mesh.nCells i j⟩ := by
  have hall : rest.all (fun f => decide (f.mesh = f0.mesh)) = true := by
    simpa [List.all_eq_true] using hmesh
  simp only [get_mass_matrix_Eigen, PtrList2Eigen, hall, PtrList.at, bind, Except.bind,
    MatrixXd.mul, MatrixXd.transpose, VectorXd.asDiagonal, field2Eigen, if_true, pure,
    Except.pure]
  have hc2 : f0.mesh.nCells * pTraits.nComponents G = f0.mesh.V.length := hc
  simp only [List.getElem?_cons_zero, hc2, if_true, List.length_cons]
  have hn : f0.mesh.nCells = f0.mesh.V.length := rfl
  congr 2
  funext i j
  simp only [weightedGram, column, hn]
  refine Finset.sum_congr rfl (fun k hk => ?_)
  rw [sum_mul_diag _ _ (Finset.mem_range.mp hk)]

/-- A call that returns was made on a non-empty sequence sharing the mesh of its first
field, with conforming products. -/
theorem get_mass_matrix_Eigen_ok_inv {G : Type} [pTraits G]
    (fields : PtrList (GeometricField G)) (M : MatrixXd)
    (h : get_mass_matrix_Eigen fields = .ok M) :
    ∃ f0 rest, fields = f0 :: rest ∧ (∀ f ∈ rest, f.mesh = f0.mesh) ∧
      f0.mesh.nCells * pTraits.nComponents G = f0.mesh.nCells := by
  cases fields with
  | nil =>
    simp [get_mass_matrix_Eigen, PtrList2Eigen, PtrList.at, bind, Except.bind] at h
  | cons f0 rest =>
    refine ⟨f0, rest, rfl, ?_⟩
    by_cases hall : rest.all (fun f => decide (f.mesh = f0.mesh)) = true
    · refine ⟨by simpa [List.all_eq_true] using hall, ?_⟩
      by_contra hne
      have hne2 : ¬ f0.mesh.nCells * pTraits.nComponents G = f0.mesh.V.length := hne
      simp [get_mass_matrix_Eigen, PtrList2Eigen, hall, PtrList.at, bind, Except.bind,
        MatrixXd.mul, MatrixXd.transpose, VectorXd.asDiagonal, field2Eigen, hne2] at h
    · simp [get_mass_matrix_Eigen, PtrList2Eigen, hall, bind, Except.bind] at h

/-- For scalar fields a column lists the cell values. -/
theorem column_scalar (fields : PtrList volScalarField) (i : Nat) (hi : i < fields.length)
    (cell : Nat) : column fields i cell = (fields[i]).internalField.getD cell 0 := by
  simp only [column, List.getElem?_eq_getElem hi, dofValue, pTraits.nComponents,
    pTraits.component, Nat.div_one, List.getD_eq_getElem?_getD]
  cases (fields[i]).internalField[cell]? <;> rfl

/-- When the products conform, the weighted product of two columns is the
volume-weighted inner product of the two fields. -/
theorem weightedGram_eq_weightedInner {G : Type} [pTraits G]
    (fields : PtrList (GeometricField G)) (mesh : fvMesh)
    (hc : mesh.nCells * pTraits.nComponents G = mesh.nCells)
    (i j : Nat) (hi : i < fields.length) (hj : j < fields.length) :
    weightedGram fields mesh.V mesh.nCells i j = weightedInner mesh fields[i] fields[j] := by
  rcases Nat.eq_zero_or_pos mesh.nCells with h0 | hpos
  · simp [weightedGram, weightedInner, h0]
  · have hc1 : pTraits.nComponents G = 1 := by
      have : mesh.nCells * pTraits.nComponents G = mesh.nCells * 1 := by rw [hc, Nat.mul_one]
      exact Nat.eq_of_mul_eq_mul_left hpos this
    simp only [weightedGram, weightedInner]
    refine Finset.sum_congr rfl (fun cell _ => ?_)
    simp only [column, List.getElem?_eq_getElem hi, List.getElem?_eq_getElem hj, dofValue,
      hc1, Nat.div_one, Nat.mod_one, cellDot, cellValue, dot, Finset.sum_range_one]
    cases (fields[i]).internalField[cell]? <;> cases (fields[j]).internalField[cell]?
    all_goals simp
    ring

/-- Entries of a list of non-negative numbers, read with default `0`, are non-negative. -/
theorem getD_nonneg (V : List ℚ) (hV : ∀ v ∈ V, 0 ≤ v) (k : Nat) : 0 ≤ V.getD k 0 := by
  rw [List.getD_eq_getElem?_getD]
  cases h : V[k]? with
  | none => simp
  | some v => simpa using hV v (List.getElem?_mem h)

/-- The quadratic form of a weighted Gram matrix is a weighted sum of squares. -/
theorem quadratic_form_eq (n N : Nat) (x v : Nat → ℚ) (a : Nat → Nat → ℚ) :
    ∑ i ∈ Finset.range n, ∑ j ∈ Finset.range n,
        x i * (∑ k ∈ Finset.range N, a i k * v k * a j k) * x j
      = ∑ k ∈ Finset.range N, v k * (∑ i ∈ Finset.range n, x i * a i k) ^ 2 := by
  have h1 : ∀ k, v k * (∑ i ∈ Finset.range n, x i * a i k) ^ 2
      = ∑ i ∈ Finset.range n, ∑ j ∈ Finset.range n, x i * (a i k * v k * a j k) * x j := by
    intro k
    rw [sq, Finset.sum_mul_sum, Finset.mul_sum]
    refine Finset.sum_congr rfl (fun i _ => ?_)
    rw [Finset.mul_sum]
    refine Finset.sum_congr rfl (fun j _ => ?_)
    ring
  have h2 : ∀ i j, x i * (∑ k ∈ Finset.range N, a i k * v k * a j k) * x j
      = ∑ k ∈ Finset.range N, x i * (a i k * v k * a j k) * x j := by
    intro i j
    rw [Finset.mul_sum, Finset.sum_mul]
  simp only [h1, h2]
  symm
  rw [Finset.sum_comm]
  refine Finset.sum_congr rfl (fun i _ => ?_)
  rw [Finset.sum_comm]

/-- The dot product of a value with itself is non-negative. -/
theorem dot_self_nonneg {G : Type} [pTraits G] (a : G) : 0 ≤ dot a a :=
  Finset.sum_nonneg (fun _ _ => mul_self_nonneg _)

/-- The dot product of a value with itself vanishes exactly when every component does. -/
theorem dot_self_eq_zero {G : Type} [pTraits G] (a : G) :
    dot a a = 0 ↔ ∀ d < pTraits.nComponents G, pTraits.component a d = 0 := by
  unfold dot
  rw [Finset.sum_eq_zero_iff_of_nonneg (fun _ _ => mul_self_nonneg _)]
  simp only [Finset.mem_range, mul_self_eq_zero]

/-- With positive volumes, the squared weighted norm of a field vanishes exactly for the
zero field. -/
theorem weightedInner_self_eq_zero {G : Type} [pTraits G] (mesh : fvMesh)
    (s : GeometricField G) (hwf : s.internalField.length = mesh.nCells)
    (hV : ∀ v ∈ mesh.V, 0 < v) :
    weightedInner mesh s s = 0 ↔
      ∀ a ∈ s.internalField, ∀ d < pTraits.nComponents G, pTraits.component a d = 0 := by
  have hterm : ∀ (cell : Nat) (h1 : cell < mesh.V.length)
      (h2 : cell < s.internalField.length),
      mesh.V.getD cell 0 * cellDot s s cell
        = mesh.V[cell] * dot s.internalField[cell] s.internalField[cell] := by
    intro cell h1 h2
    simp [cellDot, cellValue, List.getD_eq_getElem?_getD, List.getElem?_eq_getElem h1,
      List.getElem?_eq_getElem h2]
  have hlen : s.internalField.length = mesh.V.length := hwf
  unfold weightedInner
  rw [Finset.sum_eq_zero_iff_of_nonneg]
  · constructor
    · intro h a ha d hd
      obtain ⟨cell, hcell, rfl⟩ := List.mem_iff_getElem.mp ha
      have hc : cell < mesh.V.length := by omega
      have h3 := h cell (Finset.mem_range.mpr hc)
      rw [hterm cell hc hcell] at h3
      have hpos : 0 < mesh.V[cell] := hV _ (List.getElem_mem _)
      rcases mul_eq_zero.mp h3 with h4 | h4
      · exact absurd h4 (ne_of_gt hpos)
      · exact (dot_self_eq_zero _).mp h4 d hd
    · intro h cell hcell
      have hc : cell < mesh.V.length := Finset.mem_range.mp hcell
      have h2 : cell < s.internalField.length := by omega
      rw [hterm cell hc h2]
      have h0 : dot s.internalField[cell] s.internalField[cell] = 0 :=
        (dot_self_eq_zero _).mpr (h _ (List.getElem_mem _))
      rw [h0, mul_zero]
  · intro cell hcell
    have hc : cell < mesh.V.length := Finset.mem_range.mp hcell
    have h2 : cell < s.internalField.length := by omega
    rw [hterm cell hc h2]
    exact mul_nonneg (le_of_lt (hV _ (List.getElem_mem _))) (dot_self_nonneg _)

/-- On vector modes sharing a mesh with at least one cell, the first product does not
conform: `F.transpose()` has `3 * nCells` columns and `VM` has `nCells` rows. -/
theorem get_mass_matrix_Eigen_vector_fails (f0 : volVectorField)
    (rest : PtrList volVectorField) (hmesh : ∀ f ∈ rest, f.mesh = f0.mesh)
    (hN : 0 < f0.mesh.nCells) :
    get_mass_matrix_Eigen (f0 :: rest) = .error .invalidMatrixProduct := by
  have hall : rest.all (fun f => decide (f.mesh = f0.mesh)) = true := by
    simpa [List.all_eq_true] using hmesh
  have hne : ¬ f0.mesh.nCells * 3 = f0.mesh.V.length := by
    have : f0.mesh.nCells = f0.mesh.V.length := rfl
    omega
  simp [get_mass_matrix_Eigen, PtrList2Eigen, hall, PtrList.at, bind, Except.bind,
    MatrixXd.mul, MatrixXd.transpose, VectorXd.asDiagonal, field2Eigen,
    pTraits.nComponents, hne]

/-- The loop of `assignIF` after `k` iterations: the first `k` cells hold the value, the
other cells are untouched. -/
theorem assignIF_fold {G : Type} (value : G) (s : GeometricField G) (k : Nat)
    (hk : k ≤ s.internalField.length) :
    (List.range k).foldl
      (fun s i => { s with internalField := s.internalField.set i value }) s
    = { s with internalField := List.replicate k value ++ s.internalField.drop k } := by
  induction k with
  | zero => simp
  | succ k ih =>
    rw [List.range_succ, List.foldl_append, ih (Nat.le_of_succ_le hk)]
    simp only [List.foldl_cons, List.foldl_nil]
    congr 1
    apply List.ext_getElem?
    intro i
    simp only [List.getElem?_set, List.getElem?_append, List.getElem?_replicate,
      List.getElem?_drop, List.length_append, List.length_replicate, List.length_drop]
    rcases Nat.lt_trichotomy i k with h | h | h
    · have h1 : ¬ k = i := by omega
      have h2 : i < k + 1 := by omega
      simp [h1, h, h2]
    · subst h
      have h1 : i < i + (s.internalField.length - i) := by omega
      simp [h1]
    · have h1 : ¬ k = i := by omega
      have h2 : ¬ i < k := by omega
      have h3 : ¬ i < k + 1 := by omega
      have h4 : k + (i - k) = k + 1 + (i - (k + 1)) := by omega
      simp [h1, h2, h3, h4]

/-- The field left by `assignIF`: the same field with every internal value replaced. -/
theorem assignIF_eq {G : Type} (s : GeometricField G) (value : G) :
    assignIF s value
      = { s with internalField := List.replicate s.internalField.length value } := by
  unfold assignIF
  rw [assignIF_fold value s _ (Nat.le_refl _)]
  simp

/-- The two scalar modes `modeA`, `modeB` share their mesh. -/
theorem modeB_mesh : ∀ f ∈ [modeB], f.mesh = modeA.mesh := by
  intro f hf
  rw [List.mem_singleton.mp hf]
  rfl

/-- The call on `modeA`, `modeB` returns. -/
theorem get_mass_matrix_Eigen_modeAB :
    get_mass_matrix_Eigen [modeA, modeB] =
      .ok ⟨2, 2, fun i j => weightedGram [modeA, modeB] meshTwo.V 2 i j⟩ :=
  get_mass_matrix_Eigen_cons modeA [modeB] modeB_mesh rfl

/-- The entries of the matrix returned on `modeA`, `modeB`. -/
theorem get_mass_matrix_Eigen_modeAB_entries :
    (get_mass_matrix_Eigen [modeA, modeB]).map MatrixXd.toLists
      = .ok [[14, 52], [52, 197]] := by
  rw [get_mass_matrix_Eigen_modeAB]
  simp [Except.map, MatrixXd.toLists, weightedGram, column, dofValue, modeA, modeB, meshTwo,
    pTraits.nComponents, pTraits.component, Finset.sum_range_succ, List.range_succ]
  norm_num

/-! ## Mass matrix -/

/-- Claim C1.  On a non-empty sequence of scalar modes sharing one mesh,
`get_mass_matrix_Eigen` returns a square matrix with one row and one column per mode,
whose entry `(i, j)` is the sum over the cells of
`volume(cell) * mode_i(cell) * mode_j(cell)`. -/
theorem get_mass_matrix_Eigen_scalar (f0 : volScalarField) (rest : PtrList volScalarField)
    (hmesh : ∀ f ∈ rest, f.mesh = f0.mesh) :
    ∃ M, get_mass_matrix_Eigen (f0 :: rest) = .ok M ∧
      M.rows = (f0 :: rest).length ∧ M.cols = (f0 :: rest).length ∧
      ∀ (i j : Nat) (hi : i < (f0 :: rest).length) (hj : j < (f0 :: rest).length),
        M.coeff i j = ∑ cell ∈ Finset.range f0.mesh.nCells,
          f0.mesh.V.getD cell 0 * ((f0 :: rest)[i]).internalField.getD cell 0
            * ((f0 :: rest)[j]).internalField.getD cell 0 := by
  refine ⟨_, get_mass_matrix_Eigen_cons f0 rest hmesh (by simp [pTraits.nComponents]),
    rfl, rfl, ?_⟩
  intro i j hi hj
  simp only [weightedGram]
  refine Finset.sum_congr rfl (fun cell _ => ?_)
  rw [column_scalar _ i hi, column_scalar _ j hj]
  ring

/-- Claim C1 at the two modes `modeA`, `modeB` on the two-cell mesh. -/
theorem get_mass_matrix_Eigen_scalar_witness :
    (∀ f ∈ [modeB], f.mesh = modeA.mesh) ∧
    ∃ M, get_mass_matrix_Eigen (modeA :: [modeB]) = .ok M ∧
      M.rows = (modeA :: [modeB]).length ∧ M.cols = (modeA :: [modeB]).length ∧
      ∀ (i j : Nat) (hi : i < (modeA :: [modeB]).length)
        (hj : j < (modeA :: [modeB]).length),
        M.coeff i j = ∑ cell ∈ Finset.range modeA.mesh.nCells,
          modeA.mesh.V.getD cell 0 * ((modeA :: [modeB])[i]).internalField.getD cell 0
            * ((modeA :: [modeB])[j]).internalField.getD cell 0 :=
  ⟨modeB_mesh, get_mass_matrix_Eigen_scalar modeA [modeB] modeB_mesh⟩

/-- Claim C2, evaluated on the code.  For one vector mode on a one-cell mesh the call
does not return a mass matrix: the weight vector has one entry per cell (1 entry), the
vectorised mode has one row per degree of freedom (3 rows), and the product
`F.transpose() * VM` is not conforming.  The volume-weighted inner product the entry
should hold is `1`. -/
theorem get_mass_matrix_Eigen_vector_mismatch :
    get_mass_matrix_Eigen [modeU] = .error .invalidMatrixProduct ∧
    (field2Eigen modeU.mesh.V).size = 1 ∧
    (PtrList2Eigen [modeU]).map MatrixXd.rows = .ok 3 ∧
    weightedInner modeU.mesh modeU modeU = 1 := by
  refine ⟨rfl, rfl, rfl, ?_⟩
  simp [weightedInner, cellDot, cellValue, dot, modeU, meshOne, fvMesh.nCells,
    pTraits.nComponents, pTraits.component, Finset.sum_range_succ]

/-- Claim C3.  The matrix returned by `get_mass_matrix_Eigen` is square and symmetric. -/
theorem get_mass_matrix_Eigen_symmetric {G : Type} [pTraits G]
    (fields : PtrList (GeometricField G)) (M : MatrixXd)
    (h : get_mass_matrix_Eigen fields = .ok M) :
    M.rows = M.cols ∧ ∀ i j : Nat, M.coeff i j = M.coeff j i := by
  obtain ⟨f0, rest, rfl, hmesh, hc⟩ := get_mass_matrix_Eigen_ok_inv fields M h
  rw [get_mass_matrix_Eigen_cons f0 rest hmesh hc] at h
  cases h
  refine ⟨rfl, fun i j => ?_⟩
  simp only [weightedGram]
  refine Finset.sum_congr rfl (fun k _ => ?_)
  ring

/-- Claim C3 at the two modes `modeA`, `modeB`. -/
theorem get_mass_matrix_Eigen_symmetric_witness :
    ∃ M, get_mass_matrix_Eigen [modeA, modeB] = .ok M ∧
      (M.rows = M.cols ∧ ∀ i j : Nat, M.coeff i j = M.coeff j i) :=
  ⟨_, get_mass_matrix_Eigen_modeAB,
    get_mass_matrix_Eigen_symmetric [modeA, modeB] _ get_mass_matrix_Eigen_modeAB⟩

/-- Claim C4.  When the cell volumes are non-negative, the matrix `M` returned by
`get_mass_matrix_Eigen` is positive semi-definite: `xᵗ M x ≥ 0` for every coefficient
vector `x`. -/
theorem get_mass_matrix_Eigen_posSemidef {G : Type} [pTraits G]
    (fields : PtrList (GeometricField G)) (M : MatrixXd)
    (h : get_mass_matrix_Eigen fields = .ok M)
    (hV : ∀ f ∈ fields, ∀ v ∈ f.mesh.V, 0 ≤ v) (x : Nat → ℚ) :
    0 ≤ ∑ i ∈ Finset.range M.rows, ∑ j ∈ Finset.range M.cols, x i * M.coeff i j * x j := by
  obtain ⟨f0, rest, rfl, hmesh, hc⟩ := get_mass_matrix_Eigen_ok_inv fields M h
  rw [get_mass_matrix_Eigen_cons f0 rest hmesh hc] at h
  cases h
  simp only [weightedGram]
  rw [quadratic_form_eq]
  refine Finset.sum_nonneg (fun k _ => mul_nonneg ?_ (sq_nonneg _))
  exact getD_nonneg _ (hV f0 (List.mem_cons_self _ _)) k

/-- Claim C4 at the two modes `modeA`, `modeB` and the coefficient vector `(1, -1)`. -/
theorem get_mass_matrix_Eigen_posSemidef_witness :
    (∀ f ∈ [modeA, modeB], ∀ v ∈ f.mesh.V, (0 : ℚ) ≤ v) ∧
    ∃ M, get_mass_matrix_Eigen [modeA, modeB] = .ok M ∧
      0 ≤ ∑ i ∈ Finset.range M.rows, ∑ j ∈ Finset.range M.cols,
        (if i = 0 then (1 : ℚ) else -1) * M.coeff i j * (if j = 0 then (1 : ℚ) else -1) :=
  have hV : ∀ f ∈ [modeA, modeB], ∀ v ∈ f.mesh.V, (0 : ℚ) ≤ v := by
    simp [modeA, modeB, meshTwo]
  ⟨hV, _, get_mass_matrix_Eigen_modeAB,
    get_mass_matrix_Eigen_posSemidef [modeA, modeB] _ get_mass_matrix_Eigen_modeAB hV
      (fun i => if i = 0 then 1 else -1)⟩

/-- Claim C5.  When the cell volumes are strictly positive, the diagonal entry `M(i, i)`
of the matrix returned by `get_mass_matrix_Eigen` is the squared volume-weighted L2 norm
of mode `i`, the sum over the cells of `volume(cell) * ‖mode_i(cell)‖²`, and it is zero
exactly when every component of mode `i` is zero in every cell. -/
theorem get_mass_matrix_Eigen_diag {G : Type} [pTraits G]
    (fields : PtrList (GeometricField G)) (M : MatrixXd)
    (h : get_mass_matrix_Eigen fields = .ok M)
    (hwf : ∀ f ∈ fields, f.wellFormed)
    (hV : ∀ f ∈ fields, ∀ v ∈ f.mesh.V, 0 < v)
    (i : Nat) (hi : i < fields.length) :
    M.coeff i i = weightedInner (fields[i]).mesh fields[i] fields[i] ∧
    (M.coeff i i = 0 ↔
      ∀ a ∈ (fields[i]).internalField, ∀ d < pTraits.nComponents G,
        pTraits.component a d = 0) := by
  obtain ⟨f0, rest, rfl, hmesh, hc⟩ := get_mass_matrix_Eigen_ok_inv fields M h
  rw [get_mass_matrix_Eigen_cons f0 rest hmesh hc] at h
  cases h
  have hmem : (f0 :: rest)[i] ∈ f0 :: rest := List.getElem_mem _
  have hm : ((f0 :: rest)[i]).mesh = f0.mesh := by
    rcases List.mem_cons.mp hmem with h1 | h1
    · rw [h1]
    · exact hmesh _ h1
  have hdiag : weightedGram (f0 :: rest) f0.mesh.V f0.mesh.nCells i i
      = weightedInner ((f0 :: rest)[i]).mesh (f0 :: rest)[i] (f0 :: rest)[i] := by
    rw [hm]
    exact weightedGram_eq_weightedInner (f0 :: rest) f0.mesh hc i i hi hi
  refine ⟨hdiag, ?_⟩
  show weightedGram (f0 :: rest) f0.mesh.V f0.mesh.nCells i i = 0 ↔ _
  rw [hdiag]
  exact weightedInner_self_eq_zero _ _ (hwf _ hmem) (hV _ hmem)

/-- Claim C5 at the two modes `modeA`, `modeB` and the first diagonal entry. -/
theorem get_mass_matrix_Eigen_diag_witness :
    (∀ f ∈ [modeA, modeB], f.wellFormed) ∧
    (∀ f ∈ [modeA, modeB], ∀ v ∈ f.mesh.V, (0 : ℚ) < v) ∧
    ∃ M, get_mass_matrix_Eigen [modeA, modeB] = .ok M ∧
      M.coeff 0 0 = weightedInner modeA.mesh modeA modeA ∧
      (M.coeff 0 0 = 0 ↔
        ∀ a ∈ modeA.internalField, ∀ d < pTraits.nComponents ℚ,
          pTraits.component a d = 0) :=
  have hwf : ∀ f ∈ [modeA, modeB], f.wellFormed := by
    simp [modeA, modeB, meshTwo, GeometricField.wellFormed, fvMesh.nCells]
  have hV : ∀ f ∈ [modeA, modeB], ∀ v ∈ f.mesh.V, (0 : ℚ) < v := by
    simp [modeA, modeB, meshTwo]
  ⟨hwf, hV, _, get_mass_matrix_Eigen_modeAB,
    get_mass_matrix_Eigen_diag [modeA, modeB] _ get_mass_matrix_Eigen_modeAB hwf hV 0
      (by decide)⟩

/-- Claim C6 fails as stated: on the empty sequence the call does not fail with
`EmptyInput`. -/
theorem get_mass_matrix_Eigen_nil_not_EmptyInput :
    get_mass_matrix_Eigen ([] : PtrList volScalarField) ≠ .error .EmptyInput := by
  intro h
  have h2 : get_mass_matrix_Eigen ([] : PtrList volScalarField) = .error .outOfRange := rfl
  rw [h2] at h
  cases h

/-- Claim C6 as amended.  On the empty sequence `get_mass_matrix_Eigen` does not return a
matrix: nothing guards the access `fields[0]`, and the call fails there, outside the
list. -/
theorem get_mass_matrix_Eigen_nil {G : Type} [pTraits G] :
    get_mass_matrix_Eigen ([] : PtrList (GeometricField G)) = .error .outOfRange ∧
    PtrList.at ([] : PtrList (GeometricField G)) 0 = .error .outOfRange :=
  ⟨rfl, rfl⟩

/-- Claim C7.  On a sequence whose fields do not all share the same mesh,
`get_mass_matrix_Eigen` fails with `ShapeMismatch` (raised by the vectorisation of the
fields, before the volumes of the first field are read). -/
theorem get_mass_matrix_Eigen_shapeMismatch {G : Type} [pTraits G]
    (fields : PtrList (GeometricField G))
    (h : ∃ f ∈ fields, ∃ g ∈ fields, f.mesh ≠ g.mesh) :
    get_mass_matrix_Eigen fields = .error .ShapeMismatch := by
  obtain ⟨f, hf, g, hg, hfg⟩ := h
  cases fields with
  | nil => cases hf
  | cons f0 rest =>
    have hall : ¬ rest.all (fun f => decide (f.mesh = f0.mesh)) = true := by
      intro hall
      have hm : ∀ f ∈ rest, f.mesh = f0.mesh := by simpa [List.all_eq_true] using hall
      have hm2 : ∀ f ∈ f0 :: rest, f.mesh = f0.mesh := by
        intro f hf
        rcases List.mem_cons.mp hf with h1 | h1
        · rw [h1]
        · exact hm f h1
      exact hfg ((hm2 f hf).trans (hm2 g hg).symm)
    simp [get_mass_matrix_Eigen, PtrList2Eigen, hall, bind, Except.bind]

/-- Claim C7 at two scalar modes with different cell counts (two cells, one cell). -/
theorem get_mass_matrix_Eigen_shapeMismatch_witness :
    (∃ f ∈ [modeA, modeC], ∃ g ∈ [modeA, modeC], f.mesh ≠ g.mesh) ∧
    get_mass_matrix_Eigen [modeA, modeC] = .error .ShapeMismatch :=
  have h : ∃ f ∈ [modeA, modeC], ∃ g ∈ [modeA, modeC], f.mesh ≠ g.mesh :=
    ⟨modeA, by simp, modeC, by simp, by decide⟩
  ⟨h, get_mass_matrix_Eigen_shapeMismatch [modeA, modeC] h⟩

/-! ## Internal-field assignment -/

/-- Claim C8.  After `assignIF(s, value)` every internal entry of `s` equals `value`:
for every cell index `i` below the number of internal cells, entry `i` is `value`. -/
theorem assignIF_internal {G : Type} (s : GeometricField G) (value : G) (i : Nat)
    (hi : i < s.internalField.length) :
    (assignIF s value).internalField[i]? = some value := by
  rw [assignIF_eq]
  simp [List.getElem?_replicate, hi]

/-- Claim C8 at the field `fieldT`, the value `3` and the cell `1`. -/
theorem assignIF_internal_witness :
    1 < fieldT.internalField.length ∧
    (assignIF fieldT 3).internalField[1]? = some 3 :=
  ⟨by decide, assignIF_internal fieldT 3 1 (by decide)⟩

/-- Claim C10.  `assignIF` changes only the internal values: the number of internal
cells and every boundary value (as well as the name and the mesh) are unchanged;
`assignIF` is idempotent, and a later assignment fully overrides an earlier one. -/
theorem assignIF_frame {G : Type} (s : GeometricField G) (v w : G) :
    (assignIF s v).internalField.length = s.internalField.length ∧
    (assignIF s v).boundaryField = s.boundaryField ∧
    (assignIF s v).name = s.name ∧
    (assignIF s v).mesh = s.mesh ∧
    assignIF (assignIF s v) v = assignIF s v ∧
    assignIF (assignIF s v) w = assignIF s w := by
  simp [assignIF_eq]

/-! ## Field export -/

/-- Claim C9, evaluated on the code.  The call `exportSolution(s, "sub", "dir")` on a
field named `T`, whose second argument is documented as the subfolder and third as the
folder, writes the field to `sub/dir/T` and creates the links in `sub`; nothing is
written to the documented path `dir/sub/T` and no link is created in `dir`. -/
theorem exportSolution_swapped :
    exportSolution fieldT "sub" "dir" =
      [.mkDir "sub/dir", .createSymLink "sub", .info "sub/dir/T", .write "sub/dir/T" "T"] ∧
    Effect.write "dir/sub/T" "T" ∉ exportSolution fieldT "sub" "dir" ∧
    Effect.createSymLink "dir" ∉ exportSolution fieldT "sub" "dir" := by
  decide

end ITHACAutilities
